import Mathlib

/- Verification development for the receipt detector dataset generator
   (src/dataset/receipt/detector_dataset_generator.py, class ReceiptGenerator).

   Real-valued quantities (box coordinates, IoU values) are modelled over ℚ,
   so all arithmetic in the embedding is exact; numpy arrays are modelled as
   (nested) lists.  The grid target tensor of shape
   [grid_size, grid_size, anchors, 6] becomes a nested list of rationals. -/

/-- A bounding-box record `[center_x, center_y, w, h]` as handled by
`ReceiptGenerator.resize_label` (one row of the `label` array). -/
structure Box4 where
  x : ℚ
  y : ℚ
  w : ℚ
  h : ℚ
deriving DecidableEq

/-- Embedding of `ReceiptGenerator.resize_label` (lines 46-60): each box row is
multiplied elementwise by `[ratio_w, ratio_h, ratio_w, ratio_h]` where
`ratio_w = min(target_w/img_w, target_h/img_h) / target_w` and
`ratio_h = min(target_w/img_w, target_h/img_h) / target_h`.
`image_input_size` and `original_dim` are `(height, width)` pairs. -/
def resize_label (image_input_size : ℚ × ℚ) (label : List Box4)
    (original_dim : ℚ × ℚ) : List Box4 :=
  let img_h := original_dim.1
  let img_w := original_dim.2
  let target_h := image_input_size.1
  let target_w := image_input_size.2
  let ratioW := min (target_w / img_w) (target_h / img_h) / target_w
  let ratioH := min (target_w / img_w) (target_h / img_h) / target_h
  label.map (fun b => ⟨b.x * ratioW, b.y * ratioH, b.w * ratioW, b.h * ratioH⟩)

/-- Claim C1 (counterexample): with target dimensions equal to the original
image dimensions (416 = 416), `resize_label` does NOT return the box list
unchanged — the letterbox scale is 1, but the coordinates are still divided by
the target dimensions (pixel space is converted to normalized space). -/
theorem resize_label_identity_cex :
    resize_label (416, 416) [⟨100, 100, 50, 50⟩] (416, 416) ≠
      [⟨100, 100, 50, 50⟩] := by
  intro h
  norm_num [resize_label, min_self] at h

/-- Claim C1 (amended): when the target dimensions equal the original image
dimensions (and are positive), the letterbox scale factor is 1 and
`resize_label` returns each box with its x-coordinates divided by the target
width and its y-coordinates divided by the target height — the boxes are
normalized into [0,1] space, not returned unchanged. -/
theorem resize_label_identity_amended (label : List Box4) (th tw : ℚ)
    (hh : 0 < th) (hw : 0 < tw) :
    resize_label (th, tw) label (th, tw) =
      label.map (fun b => ⟨b.x / tw, b.y / th, b.w / tw, b.h / th⟩) := by
  simp only [resize_label, List.map_inj_left]
  intro a _
  have h1 : tw / tw = 1 := div_self hw.ne'
  have h2 : th / th = 1 := div_self hh.ne'
  simp [h1, h2, div_eq_mul_inv]

/-- Concrete instance of the amended C1 theorem. -/
theorem resize_label_identity_amended_witness :
    (0 : ℚ) < 416 ∧
      resize_label (416, 416) [⟨416, 208, 104, 52⟩] (416, 416) =
        ([⟨416, 208, 104, 52⟩] : List Box4).map
          (fun b => (⟨b.x / 416, b.y / 416, b.w / 416, b.h / 416⟩ : Box4)) :=
  ⟨by norm_num,
    resize_label_identity_amended [⟨416, 208, 104, 52⟩] 416 416
      (by norm_num) (by norm_num)⟩

/-- Embedding of the shape-only IoU of `ReceiptGenerator.transform_label`
(lines 99-105): `intersection = min(w, aw) * min(h, ah)`,
`iou = intersection / (w*h + aw*ah - intersection)`. -/
def shapeIou (bw bh aw ah : ℚ) : ℚ :=
  min bw aw * min bh ah / (bw * bh + aw * ah - min bw aw * min bh ah)

/-- Claim C2: for strictly positive box shape `(bw, bh)` and anchor shape
`(aw, ah)`, the shape-only IoU satisfies `0 < iou ≤ 1`, with `iou = 1` if and
only if the two shapes are equal. -/
theorem shapeIou_bounds (bw bh aw ah : ℚ)
    (hbw : 0 < bw) (hbh : 0 < bh) (haw : 0 < aw) (hah : 0 < ah) :
    0 < shapeIou bw bh aw ah ∧ shapeIou bw bh aw ah ≤ 1 ∧
      (shapeIou bw bh aw ah = 1 ↔ bw = aw ∧ bh = ah) := by
  have hminw : 0 < min bw aw := lt_min hbw haw
  have hminh : 0 < min bh ah := lt_min hbh hah
  have hI : 0 < min bw aw * min bh ah := mul_pos hminw hminh
  have hIb : min bw aw * min bh ah ≤ bw * bh :=
    mul_le_mul (min_le_left _ _) (min_le_left _ _) hminh.le hbw.le
  have hIa : min bw aw * min bh ah ≤ aw * ah :=
    mul_le_mul (min_le_right _ _) (min_le_right _ _) hminh.le haw.le
  have hU : 0 < bw * bh + aw * ah - min bw aw * min bh ah := by
    have := mul_pos hbw hbh
    linarith
  refine ⟨div_pos hI hU, ?_, ?_⟩
  · rw [shapeIou, div_le_one hU]
    linarith
  · rw [shapeIou, div_eq_one_iff_eq hU.ne']
    constructor
    · intro h
      have h1 : min bw aw * min bh ah = bw * bh := by linarith
      have h2 : min bw aw * min bh ah = aw * ah := by linarith
      rcases le_total bw aw with hw | hw <;> rcases le_total bh ah with hh | hh
      · rw [min_eq_left hw, min_eq_left hh] at h1 h2
        have hba : bw = aw := by nlinarith
        refine ⟨hba, ?_⟩
        rw [hba] at h2
        exact mul_left_cancel₀ haw.ne' h2
      · rw [min_eq_left hw, min_eq_right hh] at h1 h2
        exact ⟨mul_right_cancel₀ hah.ne' h2,
          (mul_left_cancel₀ hbw.ne' h1).symm⟩
      · rw [min_eq_right hw, min_eq_left hh] at h1 h2
        exact ⟨(mul_right_cancel₀ hbh.ne' h1).symm,
          mul_left_cancel₀ haw.ne' h2⟩
      · rw [min_eq_right hw, min_eq_right hh] at h1 h2
        have hba : bw = aw := by nlinarith
        rw [hba] at h1
        exact ⟨hba, (mul_left_cancel₀ haw.ne' h1).symm⟩
    · rintro ⟨rfl, rfl⟩
      rw [min_self, min_self]
      ring
/-- Concrete instance of the C2 theorem. -/
theorem shapeIou_bounds_witness :
    (0 : ℚ) < 2 ∧
      (0 < shapeIou 2 3 2 3 ∧ shapeIou 2 3 2 3 ≤ 1 ∧
        (shapeIou 2 3 2 3 = 1 ↔ (2 : ℚ) = 2 ∧ (3 : ℚ) = 3)) :=
  ⟨by norm_num,
    shapeIou_bounds 2 3 2 3 (by norm_num) (by norm_num) (by norm_num)
      (by norm_num)⟩

/-- Embedding of `np.argmax`'s left-to-right scan: the running best index is
replaced only when a strictly greater value is seen, so the first occurrence
of the maximum wins.  `i` is the index of the head of the remaining list,
`best` the current best index and `bv` its value. -/
def npArgmaxAux : List ℚ → ℕ → ℕ → ℚ → ℕ
  | [], _, best, _ => best
  | v :: rest, i, best, bv =>
    if bv < v then npArgmaxAux rest (i + 1) i v
    else npArgmaxAux rest (i + 1) best bv

/-- Embedding of `np.argmax` over one row of the IoU matrix
(`anchor_idx = np.argmax(iou, axis=-1)`, line 106). -/
def npArgmax : List ℚ → ℕ
  | [] => 0
  | v :: rest => npArgmaxAux rest 1 0 v

/-- The per-box IoU row of `transform_label` (lines 99-105): the IoU of the
box shape `(bw, bh)` against every anchor of the catalogue, in order. -/
def iouList (bw bh : ℚ) (anchors : List (ℚ × ℚ)) : List ℚ :=
  anchors.map (fun a => shapeIou bw bh a.1 a.2)

/-- Embedding of the anchor selection of `transform_label` (lines 99-107):
the `np.argmax` of the box's IoU row over the whole anchor catalogue. -/
def bestAnchor (bw bh : ℚ) (anchors : List (ℚ × ℚ)) : ℕ :=
  npArgmax (iouList bw bh anchors)

theorem npArgmaxAux_spec (rest : List ℚ) : ∀ (i best : ℕ) (bv : ℚ),
    (npArgmaxAux rest i best bv = best ∧
      ∀ j < rest.length, rest.getD j 0 ≤ bv) ∨
    (∃ k, k < rest.length ∧ npArgmaxAux rest i best bv = i + k ∧
      bv < rest.getD k 0 ∧
      (∀ j < rest.length, rest.getD j 0 ≤ rest.getD k 0) ∧
      (∀ j < k, rest.getD j 0 < rest.getD k 0)) := by
  induction rest with
  | nil =>
    intro i best bv
    left
    exact ⟨rfl, by simp⟩
  | cons w rest ih =>
    intro i best bv
    by_cases h : bv < w
    · rcases ih (i + 1) i w with ⟨heq, hall⟩ | ⟨k, hk, heq, hgt, hall, hst⟩
      · right
        refine ⟨0, by simp, ?_, by simpa using h, ?_, ?_⟩
        · simpa [npArgmaxAux, h] using heq
        · intro j hj
          cases j with
          | zero => simp
          | succ j =>
            simp only [List.getD_cons_succ, List.getD_cons_zero]
            exact hall j (by simpa using hj)
        · intro j hj
          omega
      · right
        refine ⟨k + 1, by simpa using hk, ?_, ?_, ?_, ?_⟩
        · have : npArgmaxAux (w :: rest) i best bv =
            npArgmaxAux rest (i + 1) i w := by simp [npArgmaxAux, h]
          rw [this, heq]
          omega
        · simpa [List.getD_cons_succ] using h.trans hgt
        · intro j hj
          cases j with
          | zero => simpa using hgt.le
          | succ j =>
            simp only [List.getD_cons_succ]
            exact hall j (by simpa using hj)
        · intro j hj
          cases j with
          | zero => simpa using hgt
          | succ j =>
            simp only [List.getD_cons_succ]
            exact hst j (by omega)
    · rcases ih (i + 1) best bv with ⟨heq, hall⟩ | ⟨k, hk, heq, hgt, hall, hst⟩
      · left
        refine ⟨by simpa [npArgmaxAux, h] using heq, ?_⟩
        intro j hj
        cases j with
        | zero => simpa using not_lt.mp h
        | succ j =>
          simp only [List.getD_cons_succ]
          exact hall j (by simpa using hj)
      · right
        refine ⟨k + 1, by simpa using hk, ?_, ?_, ?_, ?_⟩
        · have : npArgmaxAux (w :: rest) i best bv =
            npArgmaxAux rest (i + 1) best bv := by simp [npArgmaxAux, h]
          rw [this, heq]
          omega
        · simpa [List.getD_cons_succ] using hgt
        · intro j hj
          cases j with
          | zero => simpa using (not_lt.mp h).trans hgt.le
          | succ j =>
            simp only [List.getD_cons_succ]
            exact hall j (by simpa using hj)
        · intro j hj
          cases j with
          | zero => simpa using lt_of_le_of_lt (not_lt.mp h) hgt
          | succ j =>
            simp only [List.getD_cons_succ]
            exact hst j (by omega)

theorem npArgmax_spec (v : ℚ) (rest : List ℚ) :
    npArgmax (v :: rest) < (v :: rest).length ∧
    (∀ j < (v :: rest).length,
      (v :: rest).getD j 0 ≤ (v :: rest).getD (npArgmax (v :: rest)) 0) ∧
    (∀ j < npArgmax (v :: rest),
      (v :: rest).getD j 0 < (v :: rest).getD (npArgmax (v :: rest)) 0) := by
  have hdef : npArgmax (v :: rest) = npArgmaxAux rest 1 0 v := rfl
  rcases npArgmaxAux_spec rest 1 0 v with ⟨heq, hall⟩ | ⟨k, hk, heq, hgt, hall, hst⟩
  · rw [hdef, heq]
    refine ⟨by simp, ?_, ?_⟩
    · intro j hj
      cases j with
      | zero => simp
      | succ j =>
        simp only [List.getD_cons_succ, List.getD_cons_zero]
        exact hall j (by simpa using hj)
    · intro j hj
      omega
  · rw [hdef, heq]
    have hidx : 1 + k = k + 1 := by omega
    rw [hidx]
    refine ⟨by simpa using hk, ?_, ?_⟩
    · intro j hj
      cases j with
      | zero => simpa using hgt.le
      | succ j =>
        simp only [List.getD_cons_succ]
        exact hall j (by simpa using hj)
    · intro j hj
      cases j with
      | zero => simpa using hgt
      | succ j =>
        simp only [List.getD_cons_succ]
        exact hst j (by omega)

/-- Claim C3: for a non-empty anchor catalogue, `bestAnchor` returns an index
into the catalogue whose IoU is maximal over the entire catalogue, and every
index attaining the same IoU value is not smaller — i.e. the first index
achieving the maximum is selected (stable argmax, numpy tie-break). -/
theorem bestAnchor_stable_argmax (bw bh : ℚ) (anchors : List (ℚ × ℚ))
    (hne : anchors ≠ []) :
    bestAnchor bw bh anchors < anchors.length ∧
    (∀ j < anchors.length,
      (iouList bw bh anchors).getD j 0 ≤
        (iouList bw bh anchors).getD (bestAnchor bw bh anchors) 0) ∧
    (∀ j < anchors.length,
      (iouList bw bh anchors).getD j 0 =
          (iouList bw bh anchors).getD (bestAnchor bw bh anchors) 0 →
        bestAnchor bw bh anchors ≤ j) := by
  rcases anchors with _ | ⟨a, anchors⟩
  · exact absurd rfl hne
  have hlist : iouList bw bh (a :: anchors) =
      shapeIou bw bh a.1 a.2 :: anchors.map (fun p => shapeIou bw bh p.1 p.2) :=
    rfl
  have hlen : (iouList bw bh (a :: anchors)).length = (a :: anchors).length := by
    simp [iouList]
  obtain ⟨h1, h2, h3⟩ :=
    npArgmax_spec (shapeIou bw bh a.1 a.2)
      (anchors.map (fun p => shapeIou bw bh p.1 p.2))
  have hba : bestAnchor bw bh (a :: anchors) =
      npArgmax (iouList bw bh (a :: anchors)) := rfl
  rw [hlist] at hba
  refine ⟨?_, ?_, ?_⟩
  · rw [hba]
    simpa using h1
  · intro j hj
    rw [hba, hlist]
    exact h2 j (by simpa using hj)
  · intro j hj hval
    by_contra hlt
    push_neg at hlt
    have := h3 j (by rw [hba] at hlt; exact hlt)
    rw [hba, hlist] at hval
    rw [hval] at this
    exact lt_irrefl _ this

/-- Concrete instance of the C3 theorem: two identical anchors tie and the
lower index must be at most either of them. -/
theorem bestAnchor_stable_argmax_witness :
    ([((1 : ℚ), (1 : ℚ)), (1, 1)] : List (ℚ × ℚ)) ≠ [] ∧
      bestAnchor 1 1 [((1 : ℚ), (1 : ℚ)), (1, 1)] < 2 :=
  ⟨by simp, (bestAnchor_stable_argmax 1 1 [(1, 1), (1, 1)] (by simp)).1⟩

/-- The multi-scale target tensor `[grid_size, grid_size, anchors, 6]` of
`transform_targets_for_output`, as a nested list of rationals. -/
abbrev Tensor := List (List (List (List ℚ)))

/-- Replace the element at index `i` by `f` of it (no-op when out of range):
the building block for the numpy scatter assignment
`y_true_out[gy][gx][slot] = [...]` (line 90). -/
def modifyIdx {α : Type} (l : List α) (i : ℕ) (f : α → α) : List α :=
  match l, i with
  | [], _ => []
  | a :: l, 0 => f a :: l
  | a :: l, n + 1 => a :: modifyIdx l n f

/-- Embedding of `np.zeros((grid_size, grid_size, anchor_idxs.shape[0], 6))`
(line 74). -/
def tensorInit (g m : ℕ) : Tensor :=
  List.replicate g (List.replicate g (List.replicate m (List.replicate 6 (0 : ℚ))))

/-- The scatter write `y_true_out[cy][cx][slot] = v`. -/
def tensorSet (t : Tensor) (cy cx slot : ℕ) (v : List ℚ) : Tensor :=
  modifyIdx t cy (fun row =>
    modifyIdx row cx (fun cell =>
      modifyIdx cell slot (fun _ => v)))

/-- Read the 6-vector stored at `[cy][cx][slot]`. -/
def cellAt (t : Tensor) (cy cx slot : ℕ) : List ℚ :=
  ((t.getD cy []).getD cx []).getD slot []

/-- Embedding of `grid_xy = box_xy // (1 / grid_size)` (line 86): exact
rational floor division of a normalized coordinate by the cell size. -/
def gridCell (c : ℚ) (g : ℕ) : ℤ :=
  ⌊c / (1 / (g : ℚ))⌋

/-- One row of `y_train` (line 109): box coordinates, class id and the
matched global anchor index appended by `transform_label`. -/
structure YBox where
  x : ℚ
  y : ℚ
  w : ℚ
  h : ℚ
  cls : ℚ
  anchorIdx : ℕ
deriving DecidableEq

/-- Embedding of `np.where(np.equal(anchor_idxs, idx))[0][0]` guarded by
`np.any` (lines 77-85): the first position of `k` inside the mask, or `none`
when the mask does not contain `k`. -/
def firstIdxOf (k : ℕ) : List ℕ → Option ℕ
  | [] => none
  | a :: l => if a = k then some 0 else (firstIdxOf k l).map (· + 1)

/-- The body of the loop of `transform_targets_for_output` (lines 76-90) for
one box: if the box's matched anchor index occurs in this scale's mask, write
`[x, y, w, h, 1, class]` at `[grid_y][grid_x][slot]`, otherwise leave the
tensor unchanged. -/
def encodeBox (grid_size : ℕ) (anchor_idxs : List ℕ) (t : Tensor) (b : YBox) :
    Tensor :=
  match firstIdxOf b.anchorIdx anchor_idxs with
  | none => t
  | some slot =>
      tensorSet t (gridCell b.y grid_size).toNat (gridCell b.x grid_size).toNat
        slot [b.x, b.y, b.w, b.h, 1, b.cls]

/-- Embedding of `ReceiptGenerator.transform_targets_for_output`
(lines 71-92). -/
def transform_targets_for_output (y_true : List YBox) (grid_size : ℕ)
    (anchor_idxs : List ℕ) : Tensor :=
  y_true.foldl (encodeBox grid_size anchor_idxs)
    (tensorInit grid_size anchor_idxs.length)

/-- One row of the `y_true` input of `transform_label`:
`[x, y, w, h, class]`. -/
structure Box5 where
  x : ℚ
  y : ℚ
  w : ℚ
  h : ℚ
  cls : ℚ
deriving DecidableEq

/-- The per-scale loop of `transform_label` (lines 111-113): one output tensor
per anchor mask, with the grid size doubling after each scale. -/
def transformScales (y_train : List YBox) : ℕ → List (List ℕ) → List Tensor
  | _, [] => []
  | g, mask :: rest =>
      transform_targets_for_output y_train g mask ::
        transformScales y_train (g * 2) rest

/-- Embedding of `ReceiptGenerator.transform_label` (lines 94-115): match
every box to its best anchor over the whole catalogue, then encode the boxes
once per scale, starting at `grid_size = ceil(input_h / 32)`. -/
def transform_label (y_true : List Box5) (anchors : List (ℚ × ℚ))
    (anchor_masks : List (List ℕ)) (input_h : ℕ) : List Tensor :=
  transformScales
    (y_true.map (fun b => ⟨b.x, b.y, b.w, b.h, b.cls, bestAnchor b.w b.h anchors⟩))
    ((input_h + 31) / 32) anchor_masks

theorem length_modifyIdx {α : Type} (l : List α) (i : ℕ) (f : α → α) :
    (modifyIdx l i f).length = l.length := by
  induction l generalizing i with
  | nil => rfl
  | cons a l ih => cases i <;> simp [modifyIdx, ih]

theorem getD_modifyIdx {α : Type} (l : List α) (i j : ℕ) (f : α → α) (d : α) :
    (modifyIdx l i f).getD j d =
      if j = i ∧ j < l.length then f (l.getD j d) else l.getD j d := by
  induction l generalizing i j with
  | nil => simp [modifyIdx]
  | cons a l ih =>
    cases i with
    | zero =>
      cases j with
      | zero => simp [modifyIdx]
      | succ j => simp [modifyIdx]
    | succ i =>
      cases j with
      | zero => simp [modifyIdx]
      | succ j =>
        simp only [modifyIdx, List.getD_cons_succ, ih]
        have hiff : (j = i ∧ j < l.length) ↔
            (j + 1 = i + 1 ∧ j + 1 < (a :: l).length) := by
          simp only [List.length_cons]
          omega
        by_cases hc : j = i ∧ j < l.length
        · rw [if_pos hc, if_pos (hiff.mp hc)]
        · rw [if_neg hc, if_neg (fun hcc => hc (hiff.mpr hcc))]

theorem getD_replicate {α : Type} (n i : ℕ) (a d : α) :
    (List.replicate n a).getD i d = if i < n then a else d := by
  induction n generalizing i with
  | zero => simp
  | succ n ih =>
    cases i with
    | zero => rw [List.replicate_succ, List.getD_cons_zero, if_pos (by omega)]
    | succ i =>
      rw [List.replicate_succ, List.getD_cons_succ, ih i]
      by_cases h : i < n
      · rw [if_pos h, if_pos (by omega)]
      · rw [if_neg h, if_neg (by omega)]

theorem getD_mem_of_lt {α : Type} (l : List α) (i : ℕ) (d : α)
    (h : i < l.length) : l.getD i d ∈ l := by
  induction l generalizing i with
  | nil => simp at h
  | cons a l ih =>
    cases i with
    | zero => simp
    | succ i =>
      simp only [List.getD_cons_succ]
      exact List.mem_cons_of_mem a (ih i (by simpa using h))

theorem mem_modifyIdx {α : Type} (l : List α) (i : ℕ) (f : α → α) (a : α)
    (h : a ∈ modifyIdx l i f) : a ∈ l ∨ ∃ b ∈ l, a = f b := by
  induction l generalizing i with
  | nil => simp [modifyIdx] at h
  | cons c l ih =>
    cases i with
    | zero =>
      simp only [modifyIdx] at h
      rcases List.mem_cons.mp h with h | h
      · exact Or.inr ⟨c, List.mem_cons_self c l, h⟩
      · exact Or.inl (List.mem_cons_of_mem c h)
    | succ i =>
      simp only [modifyIdx] at h
      rcases List.mem_cons.mp h with h | h
      · exact Or.inl (h ▸ List.mem_cons_self c l)
      · rcases ih i h with h' | ⟨b, hb, he⟩
        · exact Or.inl (List.mem_cons_of_mem c h')
        · exact Or.inr ⟨b, List.mem_cons_of_mem c hb, he⟩

/-- Shape invariant of a target tensor: `[g, g, m, 6]`. -/
def tensorHasShape (t : Tensor) (g m : ℕ) : Prop :=
  t.length = g ∧ ∀ row ∈ t, row.length = g ∧
    ∀ cell ∈ row, cell.length = m ∧ ∀ e ∈ cell, e.length = 6

theorem tensorHasShape_init (g m : ℕ) : tensorHasShape (tensorInit g m) g m := by
  refine ⟨by simp [tensorInit], ?_⟩
  intro row hrow
  rw [List.eq_of_mem_replicate hrow]
  refine ⟨by simp, ?_⟩
  intro cell hcell
  rw [List.eq_of_mem_replicate hcell]
  refine ⟨by simp, ?_⟩
  intro e he
  rw [List.eq_of_mem_replicate he]
  simp

theorem tensorHasShape_set (t : Tensor) (g m cy cx s : ℕ) (v : List ℚ)
    (h : tensorHasShape t g m) (hv : v.length = 6) :
    tensorHasShape (tensorSet t cy cx s v) g m := by
  obtain ⟨hlen, hrow⟩ := h
  refine ⟨by rw [tensorSet, length_modifyIdx, hlen], ?_⟩
  intro row hrowmem
  rcases mem_modifyIdx _ _ _ _ hrowmem with hmem | ⟨row0, hrow0, rfl⟩
  · exact hrow row hmem
  · obtain ⟨hrl, hcell⟩ := hrow row0 hrow0
    refine ⟨by rw [length_modifyIdx, hrl], ?_⟩
    intro cell hcellmem
    rcases mem_modifyIdx _ _ _ _ hcellmem with hmem | ⟨cell0, hcell0, rfl⟩
    · exact hcell cell hmem
    · obtain ⟨hcl, he⟩ := hcell cell0 hcell0
      refine ⟨by rw [length_modifyIdx, hcl], ?_⟩
      intro e hemem
      rcases mem_modifyIdx _ _ _ _ hemem with hmem | ⟨e0, he0, rfl⟩
      · exact he e hmem
      · exact hv

theorem tensorHasShape_encode (g : ℕ) (mask : List ℕ) (t : Tensor) (b : YBox)
    (m : ℕ) (h : tensorHasShape t g m) :
    tensorHasShape (encodeBox g mask t b) g m := by
  unfold encodeBox
  cases hf : firstIdxOf b.anchorIdx mask with
  | none => simpa using h
  | some slot =>
    simpa using tensorHasShape_set t g m _ _ slot _ h (by simp)

theorem tensorHasShape_foldl (g : ℕ) (mask : List ℕ) (m : ℕ) (l : List YBox)
    (t : Tensor) (h : tensorHasShape t g m) :
    tensorHasShape (l.foldl (encodeBox g mask) t) g m := by
  induction l generalizing t with
  | nil => simpa using h
  | cons b l ih => exact ih _ (tensorHasShape_encode g mask t b m h)

theorem tensorHasShape_targets (l : List YBox) (g : ℕ) (mask : List ℕ) :
    tensorHasShape (transform_targets_for_output l g mask) g mask.length :=
  tensorHasShape_foldl g mask _ l _ (tensorHasShape_init g mask.length)

theorem cellAt_tensorInit (g m cy cx s : ℕ) (hy : cy < g) (hx : cx < g)
    (hs : s < m) : cellAt (tensorInit g m) cy cx s = List.replicate 6 0 := by
  rw [cellAt, tensorInit, getD_replicate, if_pos hy, getD_replicate, if_pos hx,
    getD_replicate, if_pos hs]

theorem cellAt_tensorSet_self (t : Tensor) (g m cy cx s : ℕ) (v : List ℚ)
    (h : tensorHasShape t g m) (hy : cy < g) (hx : cx < g) (hs : s < m) :
    cellAt (tensorSet t cy cx s v) cy cx s = v := by
  obtain ⟨hlen, hrow⟩ := h
  have hyt : cy < t.length := by omega
  obtain ⟨hrl, hcell⟩ := hrow _ (getD_mem_of_lt t cy [] hyt)
  have hxt : cx < (t.getD cy []).length := by omega
  obtain ⟨hcl, _⟩ := hcell _ (getD_mem_of_lt _ cx [] hxt)
  have hst : s < ((t.getD cy []).getD cx []).length := by omega
  rw [cellAt, tensorSet, getD_modifyIdx, if_pos ⟨rfl, hyt⟩,
    getD_modifyIdx, if_pos ⟨rfl, hxt⟩, getD_modifyIdx, if_pos ⟨rfl, hst⟩]

theorem cellAt_tensorSet_ne (t : Tensor) (cy cx s cy' cx' s' : ℕ) (v : List ℚ)
    (hne : ¬(cy' = cy ∧ cx' = cx ∧ s' = s)) :
    cellAt (tensorSet t cy cx s v) cy' cx' s' = cellAt t cy' cx' s' := by
  rw [cellAt, cellAt, tensorSet, getD_modifyIdx]
  by_cases h1 : cy' = cy ∧ cy' < t.length
  · rw [if_pos h1]
    rw [getD_modifyIdx]
    by_cases h2 : cx' = cx ∧ cx' < (t.getD cy' []).length
    · rw [if_pos h2]
      rw [getD_modifyIdx]
      have hss : s' ≠ s := fun hss => hne ⟨h1.1, h2.1, hss⟩
      rw [if_neg (fun hc => hss hc.1)]
    · rw [if_neg h2]
  · rw [if_neg h1]

theorem firstIdxOf_eq_none (k : ℕ) (l : List ℕ) (h : k ∉ l) :
    firstIdxOf k l = none := by
  induction l with
  | nil => rfl
  | cons a l ih =>
    have hak : ¬ a = k := by
      intro he
      exact h (by rw [he]; exact List.mem_cons_self k l)
    rw [firstIdxOf, if_neg hak,
      ih (fun hm => h (List.mem_cons_of_mem a hm))]
    rfl

theorem firstIdxOf_spec (k : ℕ) (l : List ℕ) (s : ℕ)
    (h : firstIdxOf k l = some s) :
    s < l.length ∧ l.getD s 0 = k ∧ ∀ j < s, l.getD j 0 ≠ k := by
  induction l generalizing s with
  | nil => simp [firstIdxOf] at h
  | cons a l ih =>
    by_cases hak : a = k
    · rw [firstIdxOf, if_pos hak] at h
      cases h
      exact ⟨by simp, by simpa using hak, by intro j hj; omega⟩
    · rw [firstIdxOf, if_neg hak] at h
      cases hfl : firstIdxOf k l with
      | none => rw [hfl] at h; simp at h
      | some s0 =>
        rw [hfl] at h
        simp only [Option.map_some', Option.some.injEq] at h
        subst h
        obtain ⟨hlt, hval, hprev⟩ := ih s0 hfl
        refine ⟨by simp only [List.length_cons]; omega, by simpa using hval, ?_⟩
        intro j hj
        cases j with
        | zero => simpa using hak
        | succ j =>
          simp only [List.getD_cons_succ]
          exact hprev j (by omega)

theorem firstIdxOf_of_mem (k : ℕ) (l : List ℕ) (h : k ∈ l) :
    ∃ s, firstIdxOf k l = some s ∧ s < l.length := by
  induction l with
  | nil => simp at h
  | cons a l ih =>
    by_cases hak : a = k
    · exact ⟨0, by rw [firstIdxOf, if_pos hak], by simp⟩
    · have hm : k ∈ l := by
        rcases List.mem_cons.mp h with he | hm
        · exact absurd he.symm hak
        · exact hm
      obtain ⟨s, hfi, hs⟩ := ih hm
      refine ⟨s + 1, by rw [firstIdxOf, if_neg hak, hfi]; rfl, ?_⟩
      simp only [List.length_cons]
      omega

theorem gridCell_eq_floor (c : ℚ) (g : ℕ) : gridCell c g = ⌊c * g⌋ := by
  rw [gridCell, div_eq_mul_inv, one_div, inv_inv]

theorem gridCell_range_iff (c : ℚ) (g : ℕ) (hg : 0 < g) :
    (0 ≤ gridCell c g ∧ gridCell c g < g) ↔ (0 ≤ c ∧ c < 1) := by
  have hgq : (0 : ℚ) < (g : ℚ) := by exact_mod_cast hg
  rw [gridCell_eq_floor]
  constructor
  · rintro ⟨h0, h1⟩
    have h0' : (0 : ℚ) ≤ c * g := by exact_mod_cast Int.le_floor.mp h0
    have h1' : c * g < (g : ℚ) := by exact_mod_cast Int.floor_lt.mp h1
    constructor
    · have hcd : c * g / g = c := mul_div_cancel_right₀ c hgq.ne'
      have hnn := div_nonneg h0' hgq.le
      rwa [hcd] at hnn
    · by_contra hc
      push_neg at hc
      nlinarith
  · rintro ⟨h0, h1⟩
    constructor
    · exact Int.le_floor.mpr (by exact_mod_cast mul_nonneg h0 hgq.le)
    · exact Int.floor_lt.mpr (by push_cast; nlinarith)

theorem gridCell_toNat_lt (c : ℚ) (g : ℕ) (hg : 0 < g) (h0 : 0 ≤ c)
    (h1 : c < 1) : (gridCell c g).toNat < g := by
  have := (gridCell_range_iff c g hg).mpr ⟨h0, h1⟩
  omega

/-- Claim C6: the assigned grid cell of a normalized center coordinate is
`floor(center * grid_size)` — the code's `box_xy // (1 / grid_size)` equals
that floor — and in particular a center of `0.5` with `grid_size = 4` lands
in cell 2. -/
theorem grid_placement (cx cy : ℚ) (g : ℕ) (hg : 0 < g)
    (hx0 : 0 ≤ cx) (hx1 : cx < 1) (hy0 : 0 ≤ cy) (hy1 : cy < 1) :
    gridCell cx g = ⌊cx * (g : ℚ)⌋ ∧ gridCell cy g = ⌊cy * (g : ℚ)⌋ ∧
      gridCell (1 / 2 : ℚ) 4 = 2 := by
  refine ⟨gridCell_eq_floor cx g, gridCell_eq_floor cy g, ?_⟩
  rw [gridCell_eq_floor,
    show (1 / 2 : ℚ) * ((4 : ℕ) : ℚ) = ((2 : ℤ) : ℚ) by norm_num,
    Int.floor_intCast]

/-- Concrete instance of the C6 theorem. -/
theorem grid_placement_witness :
    0 < 4 ∧
      (gridCell (1 / 4 : ℚ) 4 = ⌊(1 / 4 : ℚ) * ((4 : ℕ) : ℚ)⌋ ∧
        gridCell (1 / 4 : ℚ) 4 = ⌊(1 / 4 : ℚ) * ((4 : ℕ) : ℚ)⌋ ∧
        gridCell (1 / 2 : ℚ) 4 = 2) :=
  ⟨by norm_num,
    grid_placement (1 / 4) (1 / 4) 4 (by norm_num) (by norm_num) (by norm_num)
      (by norm_num) (by norm_num)⟩

/-- Claim C10: the scatter write of `transform_targets_for_output` computes
in-bounds cell indices exactly when both normalized center coordinates lie in
`[0, 1)`; a coordinate equal to exactly 1 yields the out-of-bounds index
`grid_size`. -/
theorem grid_write_bounds (cx cy : ℚ) (g : ℕ) (hg : 0 < g) :
    (((0 ≤ cx ∧ cx < 1) ∧ (0 ≤ cy ∧ cy < 1)) ↔
      ((0 ≤ gridCell cx g ∧ gridCell cx g < g) ∧
        (0 ≤ gridCell cy g ∧ gridCell cy g < g))) ∧
    (cx = 1 → gridCell cx g = g) := by
  constructor
  · rw [gridCell_range_iff cx g hg, gridCell_range_iff cy g hg]
  · rintro rfl
    rw [gridCell_eq_floor, one_mul, Int.floor_natCast]

/-- Concrete instance of the C10 theorem. -/
theorem grid_write_bounds_witness :
    0 < 2 ∧
      ((((0 ≤ (1 : ℚ) ∧ (1 : ℚ) < 1) ∧ (0 ≤ (1 / 2 : ℚ) ∧ (1 / 2 : ℚ) < 1)) ↔
        ((0 ≤ gridCell 1 2 ∧ gridCell 1 2 < 2) ∧
          (0 ≤ gridCell (1 / 2) 2 ∧ gridCell (1 / 2) 2 < 2))) ∧
      ((1 : ℚ) = 1 → gridCell 1 2 = 2)) :=
  ⟨by norm_num, grid_write_bounds 1 (1 / 2) 2 (by norm_num)⟩

theorem targets_single (b : YBox) (g : ℕ) (mask : List ℕ) :
    transform_targets_for_output [b] g mask =
      encodeBox g mask (tensorInit g mask.length) b := rfl

theorem encodeBox_not_mem (g : ℕ) (mask : List ℕ) (t : Tensor) (b : YBox)
    (h : b.anchorIdx ∉ mask) : encodeBox g mask t b = t := by
  rw [encodeBox, firstIdxOf_eq_none _ _ h]

theorem encodeBox_some (g : ℕ) (mask : List ℕ) (t : Tensor) (b : YBox)
    (slot : ℕ) (h : firstIdxOf b.anchorIdx mask = some slot) :
    encodeBox g mask t b =
      tensorSet t (gridCell b.y g).toNat (gridCell b.x g).toNat slot
        [b.x, b.y, b.w, b.h, 1, b.cls] := by
  rw [encodeBox, h]

/-- Every entry of the tensor is zero. -/
def allZero (t : Tensor) : Prop :=
  ∀ row ∈ t, ∀ cell ∈ row, ∀ e ∈ cell, ∀ q ∈ e, q = 0

theorem allZero_tensorInit (g m : ℕ) : allZero (tensorInit g m) := by
  intro row hrow cell hcell e he q hq
  rw [List.eq_of_mem_replicate hrow] at hcell
  rw [List.eq_of_mem_replicate hcell] at he
  rw [List.eq_of_mem_replicate he] at hq
  exact List.eq_of_mem_replicate hq

/-- Claim C4: a single box whose matched anchor index occurs only in the
third (finest) scale's mask yields all-zero target tensors at the two coarser
scales and exactly one non-zero cell at the finest scale; and in general a
box whose matched anchor index is not a member of a scale's mask contributes
nothing to that scale's tensor. -/
theorem mask_filtering (b : Box5) (anchors : List (ℚ × ℚ)) (m0 m1 m2 : List ℕ)
    (H : ℕ) (hH : 0 < H)
    (hx0 : 0 ≤ b.x) (hx1 : b.x < 1) (hy0 : 0 ≤ b.y) (hy1 : b.y < 1)
    (hk0 : bestAnchor b.w b.h anchors ∉ m0)
    (hk1 : bestAnchor b.w b.h anchors ∉ m1)
    (hk2 : bestAnchor b.w b.h anchors ∈ m2) :
    (∃ t0 t1 t2, transform_label [b] anchors [m0, m1, m2] H = [t0, t1, t2] ∧
      allZero t0 ∧ allZero t1 ∧
      ∃ cy cx s, cy < (H + 31) / 32 * 2 * 2 ∧ cx < (H + 31) / 32 * 2 * 2 ∧
        s < m2.length ∧ cellAt t2 cy cx s ≠ List.replicate 6 0 ∧
        ∀ cy' cx' s', cy' < (H + 31) / 32 * 2 * 2 →
          cx' < (H + 31) / 32 * 2 * 2 → s' < m2.length →
          ¬(cy' = cy ∧ cx' = cx ∧ s' = s) →
          cellAt t2 cy' cx' s' = List.replicate 6 0) ∧
    ∀ (t : Tensor) (g : ℕ) (mask : List ℕ) (yb : YBox),
      yb.anchorIdx ∉ mask → encodeBox g mask t yb = t := by
  constructor
  · have hg2 : 0 < (H + 31) / 32 * 2 * 2 := by omega
    refine ⟨transform_targets_for_output
        [⟨b.x, b.y, b.w, b.h, b.cls, bestAnchor b.w b.h anchors⟩]
        ((H + 31) / 32) m0,
      transform_targets_for_output
        [⟨b.x, b.y, b.w, b.h, b.cls, bestAnchor b.w b.h anchors⟩]
        ((H + 31) / 32 * 2) m1,
      transform_targets_for_output
        [⟨b.x, b.y, b.w, b.h, b.cls, bestAnchor b.w b.h anchors⟩]
        ((H + 31) / 32 * 2 * 2) m2,
      rfl, ?_, ?_, ?_⟩
    · rw [targets_single, encodeBox_not_mem _ _ _ _ hk0]
      exact allZero_tensorInit _ _
    · rw [targets_single, encodeBox_not_mem _ _ _ _ hk1]
      exact allZero_tensorInit _ _
    · obtain ⟨slot, hslot_eq, hslot_lt⟩ := firstIdxOf_of_mem _ m2 hk2
      have hgy := gridCell_toNat_lt b.y _ hg2 hy0 hy1
      have hgx := gridCell_toNat_lt b.x _ hg2 hx0 hx1
      refine ⟨(gridCell b.y ((H + 31) / 32 * 2 * 2)).toNat,
        (gridCell b.x ((H + 31) / 32 * 2 * 2)).toNat, slot, hgy, hgx,
        hslot_lt, ?_, ?_⟩
      · rw [targets_single, encodeBox_some _ _ _ _ _ hslot_eq,
          cellAt_tensorSet_self _ _ m2.length _ _ _ _
            (tensorHasShape_init _ _) hgy hgx hslot_lt]
        intro hv
        have h4 := congrArg (fun l => l.getD 4 (0 : ℚ)) hv
        simp only [List.getD_cons_succ, List.getD_cons_zero] at h4
        rw [getD_replicate] at h4
        norm_num at h4
      · intro cy' cx' s' hcy' hcx' hs' hne
        rw [targets_single, encodeBox_some _ _ _ _ _ hslot_eq,
          cellAt_tensorSet_ne _ _ _ _ _ _ _ _ hne,
          cellAt_tensorInit _ _ _ _ _ hcy' hcx' hs']
  · intro t g mask yb hmem
    exact encodeBox_not_mem g mask t yb hmem

/-- Concrete instance of the C4 theorem: a 4×4 box best matches anchor 2,
which lies only in the third mask. -/
theorem mask_filtering_witness :
    0 < 416 ∧
      ((∃ t0 t1 t2,
          transform_label [⟨1 / 2, 1 / 2, 4, 4, 1⟩] [(1, 1), (2, 2), (4, 4)]
              [[0], [1], [2]] 416 = [t0, t1, t2] ∧
          allZero t0 ∧ allZero t1 ∧
          ∃ cy cx s, cy < 52 ∧ cx < 52 ∧ s < 1 ∧
            cellAt t2 cy cx s ≠ List.replicate 6 0 ∧
            ∀ cy' cx' s', cy' < 52 → cx' < 52 → s' < 1 →
              ¬(cy' = cy ∧ cx' = cx ∧ s' = s) →
              cellAt t2 cy' cx' s' = List.replicate 6 0) ∧
        ∀ (t : Tensor) (g : ℕ) (mask : List ℕ) (yb : YBox),
          yb.anchorIdx ∉ mask → encodeBox g mask t yb = t) := by
  have hbest : bestAnchor (4 : ℚ) 4 [(1, 1), (2, 2), (4, 4)] = 2 := by
    norm_num [bestAnchor, iouList, shapeIou, npArgmax, npArgmaxAux]
  refine ⟨by norm_num, ?_⟩
  exact mask_filtering ⟨1 / 2, 1 / 2, 4, 4, 1⟩ [(1, 1), (2, 2), (4, 4)]
    [0] [1] [2] 416 (by norm_num) (by norm_num) (by norm_num) (by norm_num)
    (by norm_num) (by rw [show (⟨1 / 2, 1 / 2, 4, 4, 1⟩ : Box5).w = 4 from rfl,
        show (⟨1 / 2, 1 / 2, 4, 4, 1⟩ : Box5).h = 4 from rfl, hbest]; simp)
    (by rw [show (⟨1 / 2, 1 / 2, 4, 4, 1⟩ : Box5).w = 4 from rfl,
        show (⟨1 / 2, 1 / 2, 4, 4, 1⟩ : Box5).h = 4 from rfl, hbest]; simp)
    (by rw [show (⟨1 / 2, 1 / 2, 4, 4, 1⟩ : Box5).w = 4 from rfl,
        show (⟨1 / 2, 1 / 2, 4, 4, 1⟩ : Box5).h = 4 from rfl, hbest]; simp)

/-- Claim C5 (amended): for a matched box, `transform_targets_for_output`
writes the six values `(center_x, center_y, width, height, 1.0, class_id)`
into `[cell_y][cell_x][slot]`, where `slot` is the position of the matched
anchor index inside the scale's ordered mask; the four written coordinates
are the box's globally-normalized [0,1] image-space values — identical at
every scale, not rescaled relative to the scale's grid. -/
theorem grid_write_values (b : YBox) (g : ℕ) (mask : List ℕ) (slot : ℕ)
    (hg : 0 < g) (hx0 : 0 ≤ b.x) (hx1 : b.x < 1) (hy0 : 0 ≤ b.y)
    (hy1 : b.y < 1) (hs : firstIdxOf b.anchorIdx mask = some slot) :
    mask.getD slot 0 = b.anchorIdx ∧
    (∀ j < slot, mask.getD j 0 ≠ b.anchorIdx) ∧
    cellAt (transform_targets_for_output [b] g mask)
        (gridCell b.y g).toNat (gridCell b.x g).toNat slot
      = [b.x, b.y, b.w, b.h, 1, b.cls] := by
  obtain ⟨hlt, hval, hprev⟩ := firstIdxOf_spec _ _ _ hs
  refine ⟨hval, hprev, ?_⟩
  rw [targets_single, encodeBox_some _ _ _ _ _ hs]
  exact cellAt_tensorSet_self _ g mask.length _ _ _ _ (tensorHasShape_init _ _)
    (gridCell_toNat_lt _ _ hg hy0 hy1) (gridCell_toNat_lt _ _ hg hx0 hx1) hlt

/-- Concrete instance of the amended C5 theorem. -/
theorem grid_write_values_witness :
    0 < 4 ∧
      (([7] : List ℕ).getD 0 0 = 7 ∧
        (∀ j < 0, ([7] : List ℕ).getD j 0 ≠ 7) ∧
        cellAt
            (transform_targets_for_output [⟨1 / 2, 1 / 2, 1 / 4, 1 / 4, 1, 7⟩]
              4 [7])
            (gridCell (1 / 2 : ℚ) 4).toNat (gridCell (1 / 2 : ℚ) 4).toNat 0
          = [1 / 2, 1 / 2, 1 / 4, 1 / 4, 1, 1]) :=
  ⟨by norm_num,
    grid_write_values ⟨1 / 2, 1 / 2, 1 / 4, 1 / 4, 1, 7⟩ 4 [7] 0 (by norm_num)
      (by norm_num) (by norm_num) (by norm_num) (by norm_num) rfl⟩

/-- The C5 spec sentence's reading of "the four written coordinates are in
normalized space relative to that scale's grid": each coordinate measured in
units of the scale's grid cells, i.e. multiplied by the grid size.  This
definition follows the spec's words only, for comparison with the code. -/
def specGridRelativeCell (b : YBox) (g : ℕ) : List ℚ :=
  [b.x * g, b.y * g, b.w * g, b.h * g, 1, b.cls]

/-- Claim C5 (counterexample): the stored cell values are the box's global
normalized coordinates (1/2, 1/2, 1/4, 1/4), not grid-relative values: for
grid size 4 the grid-relative coordinates would be (2, 2, 1, 1). -/
theorem grid_write_values_cex :
    cellAt
        (transform_targets_for_output [⟨1 / 2, 1 / 2, 1 / 4, 1 / 4, 1, 0⟩] 4
          [0]) 2 2 0
      = [1 / 2, 1 / 2, 1 / 4, 1 / 4, 1, 1] ∧
    cellAt
        (transform_targets_for_output [⟨1 / 2, 1 / 2, 1 / 4, 1 / 4, 1, 0⟩] 4
          [0]) 2 2 0
      ≠ specGridRelativeCell ⟨1 / 2, 1 / 2, 1 / 4, 1 / 4, 1, 0⟩ 4 := by
  have hcell : gridCell (1 / 2 : ℚ) 4 = 2 := by
    rw [gridCell_eq_floor,
      show (1 / 2 : ℚ) * ((4 : ℕ) : ℚ) = ((2 : ℤ) : ℚ) by norm_num,
      Int.floor_intCast]
  have hy2 : (gridCell ((⟨1 / 2, 1 / 2, 1 / 4, 1 / 4, 1, 0⟩ : YBox).y) 4).toNat
      = 2 := by
    rw [show ((⟨1 / 2, 1 / 2, 1 / 4, 1 / 4, 1, 0⟩ : YBox).y) = 1 / 2 from rfl,
      hcell]
    rfl
  have heq : cellAt
      (transform_targets_for_output [⟨1 / 2, 1 / 2, 1 / 4, 1 / 4, 1, 0⟩] 4
        [0]) 2 2 0
      = [1 / 2, 1 / 2, 1 / 4, 1 / 4, 1, 1] := by
    rw [targets_single,
      encodeBox_some 4 [0] (tensorInit 4 ([0] : List ℕ).length)
        ⟨1 / 2, 1 / 2, 1 / 4, 1 / 4, 1, 0⟩ 0 rfl, hy2]
    exact cellAt_tensorSet_self _ 4 1 2 2 0 _ (tensorHasShape_init 4 1)
      (by norm_num) (by norm_num) (by norm_num)
  refine ⟨heq, ?_⟩
  rw [heq]
  intro hcontra
  have h0 := congrArg (fun l => l.getD 0 (0 : ℚ)) hcontra
  simp only [specGridRelativeCell, List.getD_cons_zero] at h0
  norm_num at h0

/-- Claim C7: for input size 416 and a 3-way anchor mask partition,
`transform_label` returns exactly three target tensors, ordered coarse to
fine with grid sizes 13, 26 and 52 (starting from `ceil(416/32) = 13` and
doubling at each finer scale), each of shape
`[grid_size, grid_size, mask_size, 6]`. -/
theorem shape_contract (y_true : List Box5) (anchors : List (ℚ × ℚ))
    (m0 m1 m2 : List ℕ) :
    ∃ t0 t1 t2,
      transform_label y_true anchors [m0, m1, m2] 416 = [t0, t1, t2] ∧
      tensorHasShape t0 13 m0.length ∧ tensorHasShape t1 26 m1.length ∧
      tensorHasShape t2 52 m2.length := by
  refine ⟨_, _, _, rfl, ?_, ?_, ?_⟩
  · exact tensorHasShape_targets _ _ _
  · exact tensorHasShape_targets _ _ _
  · exact tensorHasShape_targets _ _ _

/-- Claim C8: when two boxes map to the same `(cell_y, cell_x, slot)` at a
scale, the box later in iteration order silently overwrites the earlier one:
after encoding, the cell holds exactly the later box's six values. -/
theorem collision_last_write (l1 : List YBox) (b1 b2 : YBox) (g : ℕ)
    (mask : List ℕ) (slot : ℕ)
    (hs1 : firstIdxOf b1.anchorIdx mask = some slot)
    (hs2 : firstIdxOf b2.anchorIdx mask = some slot)
    (hcy : (gridCell b1.y g).toNat = (gridCell b2.y g).toNat)
    (hcx : (gridCell b1.x g).toNat = (gridCell b2.x g).toNat)
    (hgy : (gridCell b2.y g).toNat < g) (hgx : (gridCell b2.x g).toNat < g) :
    cellAt (transform_targets_for_output (l1 ++ [b1, b2]) g mask)
        (gridCell b2.y g).toNat (gridCell b2.x g).toNat slot
      = [b2.x, b2.y, b2.w, b2.h, 1, b2.cls] := by
  have hslot : slot < mask.length := (firstIdxOf_spec _ _ _ hs2).1
  rw [transform_targets_for_output, List.foldl_append, List.foldl_cons,
    List.foldl_cons, List.foldl_nil]
  have hshape : tensorHasShape
      (encodeBox g mask
        (List.foldl (encodeBox g mask) (tensorInit g mask.length) l1) b1)
      g mask.length :=
    tensorHasShape_encode _ _ _ _ _
      (tensorHasShape_foldl _ _ _ _ _ (tensorHasShape_init _ _))
  rw [encodeBox_some _ _ _ _ _ hs2]
  exact cellAt_tensorSet_self _ g mask.length _ _ _ _ hshape hgy hgx hslot

/-- Concrete instance of the C8 theorem: two boxes with the same center and
the same matched anchor collide; the final cell holds the second box's
width/height. -/
theorem collision_last_write_witness :
    firstIdxOf 5 [5] = some 0 ∧
      cellAt
          (transform_targets_for_output
            [⟨1 / 2, 1 / 2, 3 / 4, 3 / 4, 1, 5⟩,
              ⟨1 / 2, 1 / 2, 1 / 4, 1 / 4, 1, 5⟩] 2 [5])
          (gridCell (1 / 2 : ℚ) 2).toNat (gridCell (1 / 2 : ℚ) 2).toNat 0
        = [1 / 2, 1 / 2, 1 / 4, 1 / 4, 1, 1] := by
  have hb : (gridCell (1 / 2 : ℚ) 2).toNat < 2 := by
    rw [gridCell_eq_floor,
      show (1 / 2 : ℚ) * ((2 : ℕ) : ℚ) = ((1 : ℤ) : ℚ) by norm_num,
      Int.floor_intCast]
    norm_num
  exact ⟨rfl,
    collision_last_write [] ⟨1 / 2, 1 / 2, 3 / 4, 3 / 4, 1, 5⟩
      ⟨1 / 2, 1 / 2, 1 / 4, 1 / 4, 1, 5⟩ 2 [5] 0 rfl rfl rfl rfl hb hb⟩

/-- State stored by `ReceiptGenerator.__init__` and `set_labels`
(lines 12-19, 62-66): the sorted image file list and the per-annotation-file
encoded multi-scale labels.  Filenames are abstracted to natural-number
identifiers. -/
structure ReceiptGen where
  filenames : List ℕ
  labels : List (List Tensor)
deriving DecidableEq

/-- Embedding of dataset construction (`__init__` plus `set_dataset_info`,
lines 12-19 and 62-69): the image list and the labels built from the
annotation files are stored with no cross-check of their counts.  The
`Except` result makes the absence of a failure path explicit: no input is
ever rejected. -/
def receiptConstruct (image_files : List ℕ)
    (label_data : List (List Tensor)) : Except Unit ReceiptGen :=
  Except.ok ⟨image_files, label_data⟩

/-- Embedding of one pull of `gen_next_pair` (lines 129-141) at the drawn
index: the generator reads `self.filenames[index]` and `self.labels[index]`;
`none` models the `IndexError` raised when `labels` is shorter than
`filenames`. -/
def gen_next_pair (g : ReceiptGen) (index : ℕ) : Option (ℕ × List Tensor) :=
  match g.filenames.get? index with
  | none => none
  | some f =>
    match g.labels.get? index with
    | none => none
    | some l => some (f, l)

/-- Claim C9 (counterexample): with 2 image files but labels for only 1
annotation file — an unresolvable count mismatch — dataset construction
succeeds instead of failing fatally: no count check exists anywhere in
construction. -/
theorem count_mismatch_cex :
    receiptConstruct [0, 1] [[]] = Except.ok ⟨[0, 1], [[]]⟩ ∧
      ([0, 1] : List ℕ).length ≠ ([[]] : List (List Tensor)).length :=
  ⟨rfl, by simp⟩

/-- Claim C9 (amended): construction never fails — the constructor stores
both lists without comparing their counts — and a count mismatch surfaces
only at sampling time: drawing an index valid for the image list but beyond
the label list makes `gen_next_pair` fail (the `IndexError`), after the
mismatched dataset was already produced. -/
theorem count_mismatch_amended (image_files : List ℕ)
    (label_data : List (List Tensor)) (i : ℕ)
    (hi : i < image_files.length) (hmiss : label_data.length ≤ i) :
    receiptConstruct image_files label_data =
        Except.ok ⟨image_files, label_data⟩ ∧
      gen_next_pair ⟨image_files, label_data⟩ i = none := by
  refine ⟨rfl, ?_⟩
  have hnone : label_data[i]? = none := by
    rw [List.getElem?_eq_none_iff]
    exact hmiss
  cases hf : image_files[i]? with
  | none => simp [gen_next_pair, hf]
  | some f => simp [gen_next_pair, hf, hnone]

/-- Concrete instance of the amended C9 theorem. -/
theorem count_mismatch_amended_witness :
    1 < ([0, 1] : List ℕ).length ∧ ([[]] : List (List Tensor)).length ≤ 1 ∧
      (receiptConstruct [0, 1] [[]] = Except.ok ⟨[0, 1], [[]]⟩ ∧
        gen_next_pair ⟨[0, 1], [[]]⟩ 1 = none) :=
  ⟨by simp, by simp,
    count_mismatch_amended [0, 1] [[]] 1 (by simp) (by simp)⟩
